import Mathlib

/-!
Verification of the tree-house visibility solver (`src/2022/src/bin/day08.rs`).

The solver parses a text grid of digit heights into a square matrix, counts
the cells visible from outside the grid (`part1`, via four running-maximum
sweeps over axis-transformed views), and computes the maximal scenic score
(`part2`, via a brute-force ray walk `see_trees` in each of the four
directions).  The embedding below models `ndarray`'s `Array2<u8>` views as a
dimension pair together with a total height function; axis inversion and axis
swapping become index remappings, exactly as they are for `ndarray` views.
-/

/-- A 2D height grid view: `rows × cols`, heights addressed as `h row col`.
Models `ndarray::ArrayView2<u8>`; out-of-bounds reads never occur in the
verified code paths. -/
structure Grid where
  rows : Nat
  cols : Nat
  h : Nat → Nat → Nat

/-- Parsing of one character as a height digit; models
`u8::from_str(dig.to_string().as_str())`, which succeeds exactly on the ASCII
digits `0`–`9`. -/
def digitVal (c : Char) : Option Nat :=
  if c.isDigit then some (c.toNat - '0'.toNat) else none

/-- The source's `parse_input`, at the granularity of the line list
produced by `str::lines`: take the char count `len` of the first line (error
`"No lines"` if there is none), parse every character of every line as a
digit in row-major order (error on the first non-digit), and reshape the flat
digit list into a `len × len` matrix (error `"weird shape"` unless the total
count is exactly `len * len`). -/
def parse_input (lines : List (List Char)) : Except String Grid :=
  match lines with
  | [] => .error "No lines"
  | first :: _ =>
    let len := first.length
    match (lines.flatMap id).mapM digitVal with
    | none => .error "invalid digit"
    | some mat =>
      if mat.length = len * len then
        .ok ⟨len, len, fun i j => (mat.getD (i * len + j) 0)⟩
      else
        .error "weird shape"

/-- The per-column running maximum of `seeable_from_up`: the value of the
accumulator entry for column `j` after the sweep has processed rows
`0, …, i`. -/
def colMax (g : Grid) (j : Nat) : Nat → Nat
  | 0 => g.h 0 j
  | i + 1 => max (colMax g j i) (g.h (i + 1) j)

/-- Cell `(i, j)` of the boolean matrix produced by `seeable_from_up`: the
first row is filled `true` unconditionally; every later cell is `true` iff
its height strictly exceeds the running maximum of the rows above it. -/
def seeable_from_up (g : Grid) (i j : Nat) : Bool :=
  match i with
  | 0 => true
  | i' + 1 => decide (colMax g j i' < g.h (i' + 1) j)

/-- Effect of `swap_axes(0, 1)` on a view: the transposed grid. -/
def Grid.transpose (g : Grid) : Grid :=
  ⟨g.cols, g.rows, fun i j => g.h j i⟩

/-- Effect of `invert_axis(Axis(0))` on a view: the grid with its rows reversed. -/
def Grid.flipRows (g : Grid) : Grid :=
  ⟨g.rows, g.cols, fun i j => g.h (g.rows - 1 - i) j⟩

/-- The `up` matrix of `part1`: `seeable_from_up` on the grid itself. -/
def upMark (g : Grid) (i j : Nat) : Bool :=
  seeable_from_up g i j

/-- The `down` matrix of `part1`: `seeable_from_up` on the row-reversed view,
with the rows of the result reversed back. -/
def downMark (g : Grid) (i j : Nat) : Bool :=
  seeable_from_up g.flipRows (g.rows - 1 - i) j

/-- The `left` matrix of `part1`: `seeable_from_up` on the transposed view,
with the result transposed back. -/
def leftMark (g : Grid) (i j : Nat) : Bool :=
  seeable_from_up g.transpose j i

/-- The `right` matrix of `part1`: `seeable_from_up` on the transposed and
row-reversed view, with both transformations undone on the result. -/
def rightMark (g : Grid) (i j : Nat) : Bool :=
  seeable_from_up g.transpose.flipRows (g.cols - 1 - j) i

/-- The final or-combination `*a |= b | c | d` of the four sweep matrices. -/
def visibleMark (g : Grid) (i j : Nat) : Bool :=
  upMark g i j || downMark g i j || leftMark g i j || rightMark g i j

/-- All cell coordinates of the grid in row-major order. -/
def allCells (g : Grid) : List (Nat × Nat) :=
  (List.range g.rows).flatMap fun i => (List.range g.cols).map fun j => (i, j)

/-- The source's `part1`: the number of `true` entries of the combined
visibility matrix. -/
def part1 (g : Grid) : Nat :=
  (allCells g).countP fun x => visibleMark g x.1 x.2

/-- The four scan directions. -/
inductive Dir where
  | up
  | down
  | left
  | right
deriving DecidableEq

/-- The source's `Dir::apply`: take one step from `pos` in direction `d`
(`checked_sub` fails at the low edges) and return the new position only when
it still lies inside the grid (`map.get(pos).map(|_| pos)`). -/
def Dir.apply (d : Dir) (pos : Nat × Nat) (g : Grid) : Option (Nat × Nat) :=
  match d with
  | .up => if pos.1 = 0 then none else inMap (pos.1 - 1, pos.2) g
  | .down => inMap (pos.1 + 1, pos.2) g
  | .left => if pos.2 = 0 then none else inMap (pos.1, pos.2 - 1) g
  | .right => inMap (pos.1, pos.2 + 1) g
where
  /-- The bounds check performed by `map.get(pos)`. -/
  inMap (p : Nat × Nat) (g : Grid) : Option (Nat × Nat) :=
    if p.1 < g.rows ∧ p.2 < g.cols then some p else none

/-- The loop of `see_trees`, with explicit fuel standing in for the loop's
(termination-verified) unbounded iteration: step by `Dir::apply`; a failed
step ends the walk; a successful step counts the new cell and continues only
while the new cell is strictly lower than the starting height. -/
def see_trees_go (g : Grid) (own : Nat) (d : Dir) (pos : Nat × Nat) : Nat → Nat
  | 0 => 0
  | fuel + 1 =>
    match d.apply pos g with
    | none => 0
    | some p => if own ≤ g.h p.1 p.2 then 1 else 1 + see_trees_go g own d p fuel

/-- The source's `see_trees`.  `g.rows + g.cols` steps of fuel always
exceed the distance from an in-bounds cell to the grid edge, so the fuelled
loop computes the same value the Rust `loop` does. -/
def see_trees (g : Grid) (pos : Nat × Nat) (d : Dir) : Nat :=
  see_trees_go g (g.h pos.1 pos.2) d pos (g.rows + g.cols)

/-- The per-cell score of `part2`: the product, starting from `1`, of the
four directional `see_trees` counts. -/
def scenic (g : Grid) (i j : Nat) : Nat :=
  1 * see_trees g (i, j) .up * see_trees g (i, j) .down
    * see_trees g (i, j) .left * see_trees g (i, j) .right

/-- The source's `part2`: the maximum entry of the score matrix, or the
error `"No elements"` when the matrix has no entries. -/
def part2 (g : Grid) : Except String Nat :=
  match ((allCells g).map fun x => scenic g x.1 x.2).max? with
  | none => .error "No elements"
  | some m => .ok m

/-- The canonical example grid of the puzzle statement, rows `30373`,
`25512`, `65332`, `33549`, `35390`. -/
def demoRows : List (List Nat) :=
  [[3, 0, 3, 7, 3], [2, 5, 5, 1, 2], [6, 5, 3, 3, 2], [3, 3, 5, 4, 9], [3, 5, 3, 9, 0]]

/-- The canonical example grid as a `Grid`. -/
def demoGrid : Grid :=
  ⟨5, 5, fun i j => (demoRows.getD i []).getD j 0⟩

/-! ## Specification-side descriptions

The following definitions follow the wording of the specification (not the
source) and are compared against the source-derived definitions above in the
refinement theorems. -/

/-- Spec visibility from the top edge: every cell strictly between `(i, j)`
and the top edge has strictly smaller height. -/
def visUp (g : Grid) (i j : Nat) : Prop :=
  ∀ i' < i, g.h i' j < g.h i j

/-- Spec visibility from the bottom edge. -/
def visDown (g : Grid) (i j : Nat) : Prop :=
  ∀ i' < g.rows, i < i' → g.h i' j < g.h i j

/-- Spec visibility from the left edge. -/
def visLeft (g : Grid) (i j : Nat) : Prop :=
  ∀ j' < j, g.h i j' < g.h i j

/-- Spec visibility from the right edge. -/
def visRight (g : Grid) (i j : Nat) : Prop :=
  ∀ j' < g.cols, j < j' → g.h i j' < g.h i j

/-- Spec global visibility: visible from at least one of the four edges. -/
def visibleSpec (g : Grid) (i j : Nat) : Prop :=
  visUp g i j ∨ visDown g i j ∨ visLeft g i j ∨ visRight g i j

instance (g : Grid) (i j : Nat) : Decidable (visUp g i j) := by
  unfold visUp; infer_instance

instance (g : Grid) (i j : Nat) : Decidable (visDown g i j) := by
  unfold visDown; infer_instance

instance (g : Grid) (i j : Nat) : Decidable (visLeft g i j) := by
  unfold visLeft; infer_instance

instance (g : Grid) (i j : Nat) : Decidable (visRight g i j) := by
  unfold visRight; infer_instance

instance (g : Grid) (i j : Nat) : Decidable (visibleSpec g i j) := by
  unfold visibleSpec; infer_instance

/-- Spec-side ray: the coordinates of the cells from one step away from
`pos` in direction `d` out to the grid edge, in viewing order. -/
def rayList (g : Grid) (pos : Nat × Nat) : Dir → List (Nat × Nat)
  | .up => (List.range pos.1).map fun t => (pos.1 - 1 - t, pos.2)
  | .down => (List.range (g.rows - 1 - pos.1)).map fun t => (pos.1 + 1 + t, pos.2)
  | .left => (List.range pos.2).map fun t => (pos.1, pos.2 - 1 - t)
  | .right => (List.range (g.cols - 1 - pos.2)).map fun t => (pos.1, pos.2 + 1 + t)

/-- Spec-side count along a ray: count consecutive cells, counting a first
blocking cell of height at least `own` and stopping there, stopping without
further counting at the end of the ray. -/
def countSeen (g : Grid) (own : Nat) : List (Nat × Nat) → Nat
  | [] => 0
  | p :: ps => if own ≤ g.h p.1 p.2 then 1 else 1 + countSeen g own ps

/-- The specification's `viewing_distance(grid, cell, direction)`: the count
of cells seen along the ray from `cell` in `direction`. -/
def viewing_distance (g : Grid) (pos : Nat × Nat) (d : Dir) : Nat :=
  countSeen g (g.h pos.1 pos.2) (rayList g pos d)

/-- Instrumented mirror of the `see_trees` loop: the list of positions at
which the loop indexes into the map, in visiting order. -/
def see_path_go (g : Grid) (d : Dir) (own : Nat) (pos : Nat × Nat) : Nat → List (Nat × Nat)
  | 0 => []
  | fuel + 1 =>
    match d.apply pos g with
    | none => []
    | some p => if own ≤ g.h p.1 p.2 then [p] else p :: see_path_go g d own p fuel

/-- A copy of a grid with the height of the single cell `q` replaced by
`v`. -/
def bumpAt (g : Grid) (q : Nat × Nat) (v : Nat) : Grid :=
  ⟨g.rows, g.cols, fun i j => if (i, j) = q then v else g.h i j⟩

/-- A variant of the canonical grid whose out-of-bounds height function
differs everywhere; used to exhibit that the computations read only
in-bounds cells. -/
def demoGridPadded : Grid :=
  ⟨5, 5, fun i j => if i < 5 ∧ j < 5 then demoGrid.h i j else 77⟩

/-! ## The running-maximum sweep computes spec visibility -/

lemma colMax_lt_iff (g : Grid) (j x : Nat) :
    ∀ i, (colMax g j i < x ↔ ∀ i' ≤ i, g.h i' j < x) := by
  intro i
  induction i with
  | zero =>
    simp only [colMax, Nat.le_zero]
    constructor
    · rintro hx i' rfl; exact hx
    · intro hall; exact hall 0 rfl
  | succ n ih =>
    simp only [colMax, Nat.max_lt, ih]
    constructor
    · rintro ⟨hall, hn⟩ i' hi'
      rcases Nat.lt_succ_iff_lt_or_eq.mp (Nat.lt_succ_of_le hi') with hlt | rfl
      · exact hall i' (Nat.lt_succ_iff.mp hlt)
      · exact hn
    · intro hall
      exact ⟨fun i' hi' => hall i' (Nat.le_succ_of_le hi'), hall (n + 1) (Nat.le_refl _)⟩

lemma seeable_from_up_iff (g : Grid) (i j : Nat) :
    seeable_from_up g i j = true ↔ visUp g i j := by
  cases i with
  | zero => simp [seeable_from_up, visUp]
  | succ n =>
    simp only [seeable_from_up, decide_eq_true_eq, visUp, colMax_lt_iff, Nat.lt_succ_iff]

lemma upMark_iff (g : Grid) (i j : Nat) :
    upMark g i j = true ↔ visUp g i j :=
  seeable_from_up_iff g i j

lemma flipRows_h (g : Grid) (i j : Nat) : g.flipRows.h i j = g.h (g.rows - 1 - i) j := rfl

lemma downMark_iff (g : Grid) (i j : Nat) (hi : i < g.rows) :
    downMark g i j = true ↔ visDown g i j := by
  unfold downMark
  rw [seeable_from_up_iff]
  unfold visUp visDown
  have hself : g.rows - 1 - (g.rows - 1 - i) = i := by omega
  constructor
  · intro hall i' hi' hlt
    have h1 : g.rows - 1 - i' < g.rows - 1 - i := by omega
    have := hall (g.rows - 1 - i') h1
    rw [flipRows_h, flipRows_h, hself] at this
    have h2 : g.rows - 1 - (g.rows - 1 - i') = i' := by omega
    rwa [h2] at this
  · intro hall a ha
    rw [flipRows_h, flipRows_h, hself]
    exact hall (g.rows - 1 - a) (by omega) (by omega)

lemma leftMark_iff (g : Grid) (i j : Nat) :
    leftMark g i j = true ↔ visLeft g i j := by
  unfold leftMark
  rw [seeable_from_up_iff]
  exact Iff.rfl

lemma rightMark_iff (g : Grid) (i j : Nat) (hj : j < g.cols) :
    rightMark g i j = true ↔ visRight g i j := by
  unfold rightMark
  rw [seeable_from_up_iff]
  unfold visUp visRight
  have hself : g.cols - 1 - (g.cols - 1 - j) = j := by omega
  constructor
  · intro hall j' hj' hlt
    have h1 : g.cols - 1 - j' < g.cols - 1 - j := by omega
    have := hall (g.cols - 1 - j') h1
    have h2 : g.cols - 1 - (g.cols - 1 - j') = j' := by omega
    simpa [Grid.flipRows, Grid.transpose, hself, h2] using this
  · intro hall a ha
    simpa [Grid.flipRows, Grid.transpose, hself] using
      hall (g.cols - 1 - a) (by omega) (by omega)

lemma mem_allCells (g : Grid) (x : Nat × Nat) :
    x ∈ allCells g ↔ x.1 < g.rows ∧ x.2 < g.cols := by
  unfold allCells
  simp only [List.mem_flatMap, List.mem_map, List.mem_range]
  constructor
  · rintro ⟨i, hi, j, hj, rfl⟩; exact ⟨hi, hj⟩
  · rintro ⟨h1, h2⟩; exact ⟨x.1, h1, x.2, h2, rfl⟩

lemma visibleMark_iff (g : Grid) (i j : Nat) (hi : i < g.rows) (hj : j < g.cols) :
    visibleMark g i j = true ↔ visibleSpec g i j := by
  unfold visibleMark visibleSpec
  simp only [Bool.or_eq_true, upMark_iff, downMark_iff g i j hi, leftMark_iff,
    rightMark_iff g i j hj, or_assoc]

lemma part1_eq_countP_spec (g : Grid) :
    part1 g = (allCells g).countP fun x => decide (visibleSpec g x.1 x.2) := by
  unfold part1
  refine List.countP_congr fun x hx => ?_
  rw [mem_allCells] at hx
  rw [visibleMark_iff g x.1 x.2 hx.1 hx.2, decide_eq_true_eq]


/-- C2: on the canonical 5×5 grid, `part1` returns 21, `part2` returns
`Ok 8`, and the maximum is attained at row 3, column 2, whose viewing
distances are up 2, left 2, down 1, right 2 (product 8). -/
theorem demo_grid_answers :
    part1 demoGrid = 21 ∧ part2 demoGrid = .ok 8 ∧
    see_trees demoGrid (3, 2) .up = 2 ∧ see_trees demoGrid (3, 2) .left = 2 ∧
    see_trees demoGrid (3, 2) .down = 1 ∧ see_trees demoGrid (3, 2) .right = 2 ∧
    scenic demoGrid 3 2 = 8 := by
  refine ⟨?_, ?_, ?_, ?_, ?_, ?_, ?_⟩ <;> rfl

/-- C3: for every in-bounds cell, each of the four running-maximum sweep
matrices marks the cell `true` exactly when every cell strictly between it
and the corresponding edge is strictly smaller, and `part1` counts exactly
the cells that are spec-visible in at least one of the four directions. -/
theorem sweep_computes_visibility (g : Grid) (i j : Nat)
    (hi : i < g.rows) (hj : j < g.cols) :
    ((upMark g i j = true ↔ visUp g i j) ∧
     (downMark g i j = true ↔ visDown g i j) ∧
     (leftMark g i j = true ↔ visLeft g i j) ∧
     (rightMark g i j = true ↔ visRight g i j)) ∧
    part1 g = (allCells g).countP (fun x => decide (visibleSpec g x.1 x.2)) :=
  ⟨⟨upMark_iff g i j, downMark_iff g i j hi, leftMark_iff g i j,
    rightMark_iff g i j hj⟩, part1_eq_countP_spec g⟩

/-- Instantiation of `sweep_computes_visibility` at the interior cell
`(3, 2)` of the canonical grid. -/
theorem sweep_computes_visibility_witness :
    (downMark demoGrid 3 2 = true ↔ visDown demoGrid 3 2) ∧
    part1 demoGrid = (allCells demoGrid).countP
      (fun x => decide (visibleSpec demoGrid x.1 x.2)) :=
  ⟨(sweep_computes_visibility demoGrid 3 2 (by decide) (by decide)).1.2.1,
   (sweep_computes_visibility demoGrid 3 2 (by decide) (by decide)).2⟩

/-! ## Ray walks: zero-length walks off an edge -/

lemma see_trees_zero_of_apply_none (g : Grid) (pos : Nat × Nat) (d : Dir)
    (hnone : d.apply pos g = none) : see_trees g pos d = 0 := by
  unfold see_trees
  cases hf : g.rows + g.cols with
  | zero => rfl
  | succ n => simp [see_trees_go, hnone]

lemma apply_up_none (g : Grid) (i j : Nat) (hi : i = 0) :
    Dir.apply .up (i, j) g = none := by
  subst hi; rfl

lemma apply_down_none (g : Grid) (i j : Nat) (hi : g.rows ≤ i + 1) :
    Dir.apply .down (i, j) g = none := by
  simp [Dir.apply, Dir.apply.inMap, show ¬ (i + 1 < g.rows) from by omega]

lemma apply_left_none (g : Grid) (i j : Nat) (hj : j = 0) :
    Dir.apply .left (i, j) g = none := by
  subst hj; rfl

lemma apply_right_none (g : Grid) (i j : Nat) (hj : g.cols ≤ j + 1) :
    Dir.apply .right (i, j) g = none := by
  simp [Dir.apply, Dir.apply.inMap, show ¬ (j + 1 < g.cols) from by omega]

/-- C6: every cell on the grid boundary has scenic score 0. -/
theorem scenic_boundary_zero (g : Grid) (i j : Nat)
    (hi : i < g.rows) (hj : j < g.cols)
    (hb : i = 0 ∨ i = g.rows - 1 ∨ j = 0 ∨ j = g.cols - 1) :
    scenic g i j = 0 := by
  unfold scenic
  rcases hb with h0 | h0 | h0 | h0
  · rw [see_trees_zero_of_apply_none g (i, j) .up (apply_up_none g i j h0)]
    simp
  · rw [see_trees_zero_of_apply_none g (i, j) .down (apply_down_none g i j (by omega))]
    simp
  · rw [see_trees_zero_of_apply_none g (i, j) .left (apply_left_none g i j h0)]
    simp
  · rw [see_trees_zero_of_apply_none g (i, j) .right (apply_right_none g i j (by omega))]
    simp

/-- Instantiation of `scenic_boundary_zero` at the boundary cell `(0, 3)` of
the canonical grid. -/
theorem scenic_boundary_zero_witness : scenic demoGrid 0 3 = 0 :=
  scenic_boundary_zero demoGrid 0 3 (by decide) (by decide) (Or.inl rfl)

/-! ## The ray walk of `see_trees` against the spec ray -/

lemma apply_up_some (g : Grid) (i j : Nat) (hi : i < g.rows) (hj : j < g.cols)
    (h0 : i ≠ 0) : Dir.apply .up (i, j) g = some (i - 1, j) := by
  simp only [Dir.apply, Dir.apply.inMap]
  rw [if_neg h0, if_pos ⟨by omega, hj⟩]

lemma apply_down_some (g : Grid) (i j : Nat) (hi : i + 1 < g.rows) (hj : j < g.cols) :
    Dir.apply .down (i, j) g = some (i + 1, j) := by
  simp only [Dir.apply, Dir.apply.inMap]
  rw [if_pos ⟨hi, hj⟩]

lemma apply_left_some (g : Grid) (i j : Nat) (hi : i < g.rows) (hj : j < g.cols)
    (h0 : j ≠ 0) : Dir.apply .left (i, j) g = some (i, j - 1) := by
  simp only [Dir.apply, Dir.apply.inMap]
  rw [if_neg h0, if_pos ⟨hi, by omega⟩]

lemma apply_right_some (g : Grid) (i j : Nat) (hi : i < g.rows) (hj : j + 1 < g.cols) :
    Dir.apply .right (i, j) g = some (i, j + 1) := by
  simp only [Dir.apply, Dir.apply.inMap]
  rw [if_pos ⟨hi, hj⟩]

lemma rayList_up_nil (g : Grid) (j : Nat) : rayList g (0, j) .up = [] := by
  simp [rayList]

lemma rayList_up_cons (g : Grid) (i j : Nat) (h0 : i ≠ 0) :
    rayList g (i, j) .up = (i - 1, j) :: rayList g (i - 1, j) .up := by
  obtain ⟨k, rfl⟩ : ∃ k, i = k + 1 := ⟨i - 1, by omega⟩
  simp only [rayList, List.range_succ_eq_map, List.map_cons, List.map_map]
  refine congrArg₂ _ rfl (List.map_congr_left fun t ht => ?_)
  simp only [Function.comp_apply, Prod.mk.injEq, eq_self_iff_true, and_true, true_and]
  omega

lemma rayList_down_nil (g : Grid) (i j : Nat) (h : g.rows ≤ i + 1) :
    rayList g (i, j) .down = [] := by
  simp [rayList, show g.rows - 1 - i = 0 from by omega]

lemma rayList_down_cons (g : Grid) (i j : Nat) (h : i + 1 < g.rows) :
    rayList g (i, j) .down = (i + 1, j) :: rayList g (i + 1, j) .down := by
  have hsplit : g.rows - 1 - i = (g.rows - 1 - (i + 1)) + 1 := by omega
  simp only [rayList, hsplit, List.range_succ_eq_map, List.map_cons, List.map_map]
  refine congrArg₂ _ (by simp) (List.map_congr_left fun t ht => ?_)
  simp only [Function.comp_apply, Prod.mk.injEq, eq_self_iff_true, and_true, true_and]
  omega

lemma rayList_left_nil (g : Grid) (i : Nat) : rayList g (i, 0) .left = [] := by
  simp [rayList]

lemma rayList_left_cons (g : Grid) (i j : Nat) (h0 : j ≠ 0) :
    rayList g (i, j) .left = (i, j - 1) :: rayList g (i, j - 1) .left := by
  obtain ⟨k, rfl⟩ : ∃ k, j = k + 1 := ⟨j - 1, by omega⟩
  simp only [rayList, List.range_succ_eq_map, List.map_cons, List.map_map]
  refine congrArg₂ _ rfl (List.map_congr_left fun t ht => ?_)
  simp only [Function.comp_apply, Prod.mk.injEq, eq_self_iff_true, and_true, true_and]
  omega

lemma rayList_right_nil (g : Grid) (i j : Nat) (h : g.cols ≤ j + 1) :
    rayList g (i, j) .right = [] := by
  simp [rayList, show g.cols - 1 - j = 0 from by omega]

lemma rayList_right_cons (g : Grid) (i j : Nat) (h : j + 1 < g.cols) :
    rayList g (i, j) .right = (i, j + 1) :: rayList g (i, j + 1) .right := by
  have hsplit : g.cols - 1 - j = (g.cols - 1 - (j + 1)) + 1 := by omega
  simp only [rayList, hsplit, List.range_succ_eq_map, List.map_cons, List.map_map]
  refine congrArg₂ _ (by simp) (List.map_congr_left fun t ht => ?_)
  simp only [Function.comp_apply, Prod.mk.injEq, eq_self_iff_true, and_true, true_and]
  omega

lemma go_eq_countSeen_of_none (g : Grid) (own : Nat) (d : Dir) (n : Nat)
    (pos : Nat × Nat) (happ : d.apply pos g = none)
    (hray : rayList g pos d = []) :
    see_trees_go g own d pos (n + 1) = countSeen g own (rayList g pos d) := by
  rw [hray]
  simp [see_trees_go, happ, countSeen]

lemma go_eq_countSeen_of_some (g : Grid) (own : Nat) (d : Dir) (n : Nat)
    (pos p : Nat × Nat) (happ : d.apply pos g = some p)
    (hray : rayList g pos d = p :: rayList g p d)
    (hrec : see_trees_go g own d p n = countSeen g own (rayList g p d)) :
    see_trees_go g own d pos (n + 1) = countSeen g own (rayList g pos d) := by
  rw [hray]
  simp only [see_trees_go, happ, countSeen]
  by_cases hb : own ≤ g.h p.1 p.2
  · simp [hb]
  · simp [hb, hrec]

lemma see_trees_go_eq_countSeen (g : Grid) (own : Nat) (d : Dir) :
    ∀ fuel pos, pos.1 < g.rows → pos.2 < g.cols →
      (rayList g pos d).length ≤ fuel →
      see_trees_go g own d pos fuel = countSeen g own (rayList g pos d) := by
  intro fuel
  induction fuel with
  | zero =>
    intro pos h1 h2 hlen
    have hnil : rayList g pos d = [] :=
      List.eq_nil_of_length_eq_zero (Nat.le_zero.mp hlen)
    rw [hnil]
    rfl
  | succ n ih =>
    rintro ⟨i, j⟩ h1 h2 hlen
    cases d with
    | up =>
      rcases Nat.eq_zero_or_pos i with h0 | h0
      · subst h0
        exact go_eq_countSeen_of_none g own .up n (0, j) (apply_up_none g 0 j rfl)
          (rayList_up_nil g j)
      · have hray := rayList_up_cons g i j (by omega)
        refine go_eq_countSeen_of_some g own .up n (i, j) (i - 1, j)
          (apply_up_some g i j h1 h2 (by omega)) hray ?_
        refine ih (i - 1, j) (by omega) h2 ?_
        rw [hray] at hlen
        simpa using Nat.le_of_succ_le_succ hlen
    | down =>
      rcases Nat.lt_or_ge (i + 1) g.rows with hlt | hge
      · have hray := rayList_down_cons g i j hlt
        refine go_eq_countSeen_of_some g own .down n (i, j) (i + 1, j)
          (apply_down_some g i j hlt h2) hray ?_
        refine ih (i + 1, j) hlt h2 ?_
        rw [hray] at hlen
        simpa using Nat.le_of_succ_le_succ hlen
      · exact go_eq_countSeen_of_none g own .down n (i, j) (apply_down_none g i j hge)
          (rayList_down_nil g i j hge)
    | left =>
      rcases Nat.eq_zero_or_pos j with h0 | h0
      · subst h0
        exact go_eq_countSeen_of_none g own .left n (i, 0) (apply_left_none g i 0 rfl)
          (rayList_left_nil g i)
      · have hray := rayList_left_cons g i j (by omega)
        refine go_eq_countSeen_of_some g own .left n (i, j) (i, j - 1)
          (apply_left_some g i j h1 h2 (by omega)) hray ?_
        refine ih (i, j - 1) h1 (by omega) ?_
        rw [hray] at hlen
        simpa using Nat.le_of_succ_le_succ hlen
    | right =>
      rcases Nat.lt_or_ge (j + 1) g.cols with hlt | hge
      · have hray := rayList_right_cons g i j hlt
        refine go_eq_countSeen_of_some g own .right n (i, j) (i, j + 1)
          (apply_right_some g i j h1 hlt) hray ?_
        refine ih (i, j + 1) h1 hlt ?_
        rw [hray] at hlen
        simpa using Nat.le_of_succ_le_succ hlen
      · exact go_eq_countSeen_of_none g own .right n (i, j) (apply_right_none g i j hge)
          (rayList_right_nil g i j hge)

lemma rayList_length_le (g : Grid) (pos : Nat × Nat) (d : Dir)
    (h1 : pos.1 < g.rows) (h2 : pos.2 < g.cols) :
    (rayList g pos d).length ≤ g.rows + g.cols := by
  cases d <;> simp [rayList] <;> omega

lemma see_trees_eq_countSeen (g : Grid) (pos : Nat × Nat) (d : Dir)
    (h1 : pos.1 < g.rows) (h2 : pos.2 < g.cols) :
    see_trees g pos d = countSeen g (g.h pos.1 pos.2) (rayList g pos d) :=
  see_trees_go_eq_countSeen g _ d (g.rows + g.cols) pos h1 h2
    (rayList_length_le g pos d h1 h2)

/-- C4: for every in-bounds cell and every direction, `see_trees` returns
the spec's viewing distance: the count of cells along the ray toward the
edge, counting a first blocking cell of height at least the starting cell's
and stopping there, or stopping uncounted at the edge; in particular it
returns 0 when the first step already leaves the grid. -/
theorem see_trees_eq_viewing_distance (g : Grid) (pos : Nat × Nat) (d : Dir)
    (h1 : pos.1 < g.rows) (h2 : pos.2 < g.cols) :
    see_trees g pos d = viewing_distance g pos d ∧
    (d.apply pos g = none → see_trees g pos d = 0) :=
  ⟨see_trees_eq_countSeen g pos d h1 h2,
   fun hnone => see_trees_zero_of_apply_none g pos d hnone⟩

/-- Instantiation of `see_trees_eq_viewing_distance` at cell `(3, 2)` of
the canonical grid, direction up. -/
theorem see_trees_eq_viewing_distance_witness :
    see_trees demoGrid (3, 2) .up = viewing_distance demoGrid (3, 2) .up :=
  (see_trees_eq_viewing_distance demoGrid (3, 2) .up (by decide) (by decide)).1

/-! ## Safety and termination of the `see_trees` walk -/

lemma inMap_some (g : Grid) (p q : Nat × Nat) (h : Dir.apply.inMap p g = some q) :
    q.1 < g.rows ∧ q.2 < g.cols := by
  unfold Dir.apply.inMap at h
  by_cases hc : p.1 < g.rows ∧ p.2 < g.cols
  · rw [if_pos hc] at h
    cases h
    exact hc
  · rw [if_neg hc] at h
    cases h

lemma apply_some_in_bounds (g : Grid) (d : Dir) (pos q : Nat × Nat)
    (h : d.apply pos g = some q) : q.1 < g.rows ∧ q.2 < g.cols := by
  cases d with
  | up =>
    simp only [Dir.apply] at h
    split at h
    · cases h
    · exact inMap_some g _ q h
  | down =>
    simp only [Dir.apply] at h
    exact inMap_some g _ q h
  | left =>
    simp only [Dir.apply] at h
    split at h
    · cases h
    · exact inMap_some g _ q h
  | right =>
    simp only [Dir.apply] at h
    exact inMap_some g _ q h

lemma see_trees_go_eq_path_length (g : Grid) (own : Nat) (d : Dir) :
    ∀ fuel pos, see_trees_go g own d pos fuel = (see_path_go g d own pos fuel).length := by
  intro fuel
  induction fuel with
  | zero => intro pos; rfl
  | succ n ih =>
    intro pos
    cases happ : d.apply pos g with
    | none => simp [see_trees_go, see_path_go, happ]
    | some p =>
      by_cases hb : own ≤ g.h p.1 p.2
      · simp [see_trees_go, see_path_go, happ, hb]
      · simp [see_trees_go, see_path_go, happ, hb, ih p, Nat.add_comm]

lemma see_path_mem_in_bounds (g : Grid) (own : Nat) (d : Dir) :
    ∀ fuel pos p, p ∈ see_path_go g d own pos fuel → p.1 < g.rows ∧ p.2 < g.cols := by
  intro fuel
  induction fuel with
  | zero => intro pos p hp; simp [see_path_go] at hp
  | succ n ih =>
    intro pos p hp
    cases happ : d.apply pos g with
    | none => simp [see_path_go, happ] at hp
    | some q =>
      by_cases hb : own ≤ g.h q.1 q.2
      · simp only [see_path_go, happ, if_pos hb, List.mem_singleton] at hp
        exact hp ▸ apply_some_in_bounds g d pos q happ
      · simp only [see_path_go, happ, if_neg hb, List.mem_cons] at hp
        rcases hp with rfl | hp
        · exact apply_some_in_bounds g d pos p happ
        · exact ih q p hp

lemma countSeen_le_length (g : Grid) (own : Nat) :
    ∀ l : List (Nat × Nat), countSeen g own l ≤ l.length := by
  intro l
  induction l with
  | nil => exact Nat.le_refl 0
  | cons p ps ih =>
    simp only [countSeen, List.length_cons]
    by_cases hb : own ≤ g.h p.1 p.2
    · rw [if_pos hb]; omega
    · rw [if_neg hb]; omega

/-- C10: `Dir.apply` only ever returns in-bounds positions, so every map
index the `see_trees` loop reads (recorded by `see_path_go`) is in bounds;
the loop's count is the length of that read trace; and the loop needs no
more iterations than there are cells between the start and the edge: the
count is bounded by the ray length, and any fuel at least the ray length
yields the same count. -/
theorem see_trees_safe (g : Grid) (pos : Nat × Nat) (d : Dir)
    (h1 : pos.1 < g.rows) (h2 : pos.2 < g.cols) :
    (∀ q p, d.apply q g = some p → p.1 < g.rows ∧ p.2 < g.cols) ∧
    (∀ p ∈ see_path_go g d (g.h pos.1 pos.2) pos (g.rows + g.cols),
      p.1 < g.rows ∧ p.2 < g.cols) ∧
    see_trees g pos d = (see_path_go g d (g.h pos.1 pos.2) pos (g.rows + g.cols)).length ∧
    see_trees g pos d ≤ (rayList g pos d).length ∧
    (∀ fuel, (rayList g pos d).length ≤ fuel →
      see_trees_go g (g.h pos.1 pos.2) d pos fuel = see_trees g pos d) := by
  refine ⟨fun q p hqp => apply_some_in_bounds g d q p hqp,
    fun p hp => see_path_mem_in_bounds g _ d _ pos p hp,
    see_trees_go_eq_path_length g _ d _ pos, ?_, ?_⟩
  · rw [see_trees_eq_countSeen g pos d h1 h2]
    exact countSeen_le_length g _ _
  · intro fuel hf
    rw [see_trees_go_eq_countSeen g _ d fuel pos h1 h2 hf,
      see_trees_eq_countSeen g pos d h1 h2]

/-- Instantiation of `see_trees_safe` at cell `(2, 2)` of the canonical
grid, direction left. -/
theorem see_trees_safe_witness :
    see_trees demoGrid (2, 2) .left ≤ (rayList demoGrid (2, 2) .left).length :=
  (see_trees_safe demoGrid (2, 2) .left (by decide) (by decide)).2.2.2.1

/-! ## Antitonicity of the viewing distance in the blocking heights -/

lemma apply_congr_dims (g g' : Grid) (hr : g'.rows = g.rows) (hc : g'.cols = g.cols)
    (d : Dir) (pos : Nat × Nat) : d.apply pos g' = d.apply pos g := by
  cases d <;> simp [Dir.apply, Dir.apply.inMap, hr, hc]

lemma see_trees_go_mono (g g' : Grid) (hr : g'.rows = g.rows) (hc : g'.cols = g.cols)
    (hh : ∀ i j, g.h i j ≤ g'.h i j) (own : Nat) (d : Dir) :
    ∀ fuel pos, see_trees_go g' own d pos fuel ≤ see_trees_go g own d pos fuel := by
  intro fuel
  induction fuel with
  | zero => intro pos; exact Nat.le_refl 0
  | succ n ih =>
    intro pos
    simp only [see_trees_go, apply_congr_dims g g' hr hc d pos]
    cases happ : d.apply pos g with
    | none => simp [happ]
    | some p =>
      simp only [happ]
      by_cases hb : own ≤ g.h p.1 p.2
      · rw [if_pos hb, if_pos (Nat.le_trans hb (hh p.1 p.2))]
      · rw [if_neg hb]
        by_cases hb' : own ≤ g'.h p.1 p.2
        · rw [if_pos hb']; omega
        · rw [if_neg hb']
          have := ih p
          omega

lemma rayList_ne_start (g : Grid) (pos q : Nat × Nat) (d : Dir)
    (hq : q ∈ rayList g pos d) : q ≠ pos := by
  cases d with
  | up =>
    simp only [rayList, List.mem_map, List.mem_range] at hq
    obtain ⟨t, ht, rfl⟩ := hq
    intro hEq
    have := congrArg Prod.fst hEq
    simp only at this
    omega
  | down =>
    simp only [rayList, List.mem_map, List.mem_range] at hq
    obtain ⟨t, ht, rfl⟩ := hq
    intro hEq
    have := congrArg Prod.fst hEq
    simp only at this
    omega
  | left =>
    simp only [rayList, List.mem_map, List.mem_range] at hq
    obtain ⟨t, ht, rfl⟩ := hq
    intro hEq
    have := congrArg Prod.snd hEq
    simp only at this
    omega
  | right =>
    simp only [rayList, List.mem_map, List.mem_range] at hq
    obtain ⟨t, ht, rfl⟩ := hq
    intro hEq
    have := congrArg Prod.snd hEq
    simp only at this
    omega

lemma bumpAt_ne (g : Grid) (q : Nat × Nat) (v : Nat) (p : Nat × Nat) (hp : p ≠ q) :
    (bumpAt g q v).h p.1 p.2 = g.h p.1 p.2 := by
  unfold bumpAt
  exact if_neg (by simpa using hp)

/-- C8: raising the height of a single cell on the ray from `pos` in
direction `d`, all other heights fixed, never increases `see_trees`. -/
theorem see_trees_antitone (g g' : Grid) (pos q : Nat × Nat) (d : Dir)
    (hr : g'.rows = g.rows) (hc : g'.cols = g.cols)
    (hq : q ∈ rayList g pos d)
    (hraise : g.h q.1 q.2 ≤ g'.h q.1 q.2)
    (hfix : ∀ p : Nat × Nat, p ≠ q → g'.h p.1 p.2 = g.h p.1 p.2) :
    see_trees g' pos d ≤ see_trees g pos d := by
  have hh : ∀ i j, g.h i j ≤ g'.h i j := by
    intro i j
    by_cases hpq : ((i, j) : Nat × Nat) = q
    · rw [← hpq] at hraise
      exact hraise
    · exact Nat.le_of_eq (hfix (i, j) hpq).symm
  have hpos : g'.h pos.1 pos.2 = g.h pos.1 pos.2 :=
    hfix pos (Ne.symm (rayList_ne_start g pos q d hq))
  unfold see_trees
  rw [hr, hc, hpos]
  exact see_trees_go_mono g g' hr hc hh (g.h pos.1 pos.2) d (g.rows + g.cols) pos

/-- Instantiation of `see_trees_antitone`: raising the height-3 cell
`(2, 2)` of the canonical grid to 9 does not increase the upward viewing
distance from `(3, 2)`. -/
theorem see_trees_antitone_witness :
    see_trees (bumpAt demoGrid (2, 2) 9) (3, 2) .up ≤ see_trees demoGrid (3, 2) .up :=
  see_trees_antitone demoGrid (bumpAt demoGrid (2, 2) 9) (3, 2) (2, 2) .up rfl rfl
    (by decide) (by decide) (fun p hp => bumpAt_ne demoGrid (2, 2) 9 p hp)

/-! ## `part2`: failure exactly on the empty grid, otherwise the maximum -/

lemma length_allCells (g : Grid) : (allCells g).length = g.rows * g.cols := by
  unfold allCells
  rw [List.length_flatMap]
  have hmap : (List.range g.rows).map
      (List.length ∘ fun i => (List.range g.cols).map fun j => (i, j)) =
      (List.range g.rows).map fun _ => g.cols := by
    refine List.map_congr_left fun i hi => ?_
    simp
  rw [hmap]
  induction g.rows with
  | zero => simp
  | succ n ih =>
    rw [List.range_succ, List.map_append, List.sum_append]
    simp [ih, Nat.succ_mul]

lemma allCells_eq_nil_iff (g : Grid) : allCells g = [] ↔ g.rows * g.cols = 0 := by
  rw [← List.length_eq_zero, length_allCells]

/-- C5: `part2` fails, with the error text `"No elements"`, exactly when the
grid has zero cells; on every non-empty grid it returns `Ok m` where `m` is
attained by some cell's scenic product and bounds every cell's scenic
product. -/
theorem part2_spec (g : Grid) :
    (g.rows * g.cols = 0 → part2 g = .error "No elements") ∧
    (0 < g.rows * g.cols →
      ∃ m, part2 g = .ok m ∧
        (∃ i < g.rows, ∃ j < g.cols, scenic g i j = m) ∧
        (∀ i < g.rows, ∀ j < g.cols, scenic g i j ≤ m)) := by
  constructor
  · intro h0
    have hnil : allCells g = [] := (allCells_eq_nil_iff g).mpr h0
    unfold part2
    rw [hnil]
    rfl
  · intro hpos
    have hne : allCells g ≠ [] := by
      rw [Ne, allCells_eq_nil_iff]
      omega
    cases hmax : ((allCells g).map fun x => scenic g x.1 x.2).max? with
    | none =>
      have := List.max?_eq_none_iff.mp hmax
      rw [List.map_eq_nil_iff] at this
      exact absurd this hne
    | some m =>
      have hchar := List.max?_eq_some_iff'.mp hmax
      refine ⟨m, ?_, ?_, ?_⟩
      · unfold part2
        rw [hmax]
      · obtain ⟨x, hx, hxm⟩ := List.mem_map.mp hchar.1
        have hb := (mem_allCells g x).mp hx
        exact ⟨x.1, hb.1, x.2, hb.2, hxm⟩
      · intro i hi j hj
        exact hchar.2 _ (List.mem_map.mpr ⟨(i, j), (mem_allCells g (i, j)).mpr ⟨hi, hj⟩, rfl⟩)

/-- Instantiation of `part2_spec` on the canonical grid. -/
theorem part2_spec_witness :
    ∃ m, part2 demoGrid = .ok m ∧
      (∃ i < demoGrid.rows, ∃ j < demoGrid.cols, scenic demoGrid i j = m) ∧
      (∀ i < demoGrid.rows, ∀ j < demoGrid.cols, scenic demoGrid i j ≤ m) :=
  (part2_spec demoGrid).2 (by decide)

/-! ## Every boundary cell is marked visible; `part1` lower bound -/

lemma upMark_row_zero (g : Grid) (j : Nat) : upMark g 0 j = true := rfl

lemma downMark_last_row (g : Grid) (j : Nat) : downMark g (g.rows - 1) j = true := by
  unfold downMark
  rw [Nat.sub_self]
  rfl

lemma leftMark_col_zero (g : Grid) (i : Nat) : leftMark g i 0 = true := rfl

lemma rightMark_last_col (g : Grid) (i : Nat) : rightMark g i (g.cols - 1) = true := by
  unfold rightMark
  rw [Nat.sub_self]
  rfl

lemma part1_eq_sum_rows (g : Grid) :
    part1 g = ((List.range g.rows).map fun i =>
      (List.range g.cols).countP fun j => visibleMark g i j).sum := by
  unfold part1 allCells
  rw [List.countP_flatMap]
  refine congrArg _ (List.map_congr_left fun i hi => ?_)
  simp only [Function.comp_apply, List.countP_map]
  rfl

lemma countP_row_ge_two (g : Grid) (i : Nat) (hc : 2 ≤ g.cols) :
    2 ≤ (List.range g.cols).countP fun j => visibleMark g i j := by
  rw [List.countP_eq_length_filter]
  have h0 : (0 : Nat) ∈ (List.range g.cols).filter fun j => visibleMark g i j := by
    rw [List.mem_filter]
    exact ⟨List.mem_range.mpr (by omega), by simp [visibleMark, leftMark_col_zero]⟩
  have h1 : g.cols - 1 ∈ (List.range g.cols).filter fun j => visibleMark g i j := by
    rw [List.mem_filter]
    exact ⟨List.mem_range.mpr (by omega), by simp [visibleMark, rightMark_last_col]⟩
  calc 2 = ({0, g.cols - 1} : Finset Nat).card := (Finset.card_pair (by omega)).symm
    _ ≤ ((List.range g.cols).filter fun j => visibleMark g i j).toFinset.card :=
        Finset.card_le_card (Finset.insert_subset_iff.mpr
          ⟨List.mem_toFinset.mpr h0, Finset.singleton_subset_iff.mpr (List.mem_toFinset.mpr h1)⟩)
    _ ≤ ((List.range g.cols).filter fun j => visibleMark g i j).length :=
        List.toFinset_card_le _

lemma countP_row_zero_full (g : Grid) :
    ((List.range g.cols).countP fun j => visibleMark g 0 j) = g.cols := by
  rw [List.countP_eq_length.mpr fun j hj => by simp [visibleMark, upMark_row_zero],
    List.length_range]

lemma countP_row_last_full (g : Grid) :
    ((List.range g.cols).countP fun j => visibleMark g (g.rows - 1) j) = g.cols := by
  rw [List.countP_eq_length.mpr fun j hj => by simp [visibleMark, downMark_last_row],
    List.length_range]

lemma sum_map_range_ge (F : Nat → Nat) (hF : ∀ i, 2 ≤ F i) :
    ∀ n, 2 * n ≤ ((List.range n).map F).sum := by
  intro n
  induction n with
  | zero => simp
  | succ k ih =>
    rw [List.range_succ, List.map_append, List.sum_append]
    have := hF k
    simp only [List.map_cons, List.map_nil, List.sum_cons, List.sum_nil]
    omega

/-- C7: whenever the grid has at least two rows and two columns, `part1`
counts at least the `2·rows + 2·cols − 4` boundary cells. -/
theorem part1_lower_bound (g : Grid) (hr : 2 ≤ g.rows) (hc : 2 ≤ g.cols) :
    2 * g.rows + 2 * g.cols - 4 ≤ part1 g := by
  rw [part1_eq_sum_rows]
  set F := fun i => (List.range g.cols).countP fun j => visibleMark g i j with hFdef
  have hF2 : ∀ i, 2 ≤ F i := fun i => countP_row_ge_two g i hc
  have hF0 : F 0 = g.cols := countP_row_zero_full g
  have hFlast : F (g.rows - 1) = g.cols := countP_row_last_full g
  have hsplit : List.range g.rows = List.range (g.rows - 1) ++ [g.rows - 1] := by
    conv_lhs => rw [show g.rows = (g.rows - 1) + 1 from by omega]
    exact List.range_succ _
  have hsplit2 : List.range (g.rows - 1) = 0 :: List.map Nat.succ (List.range (g.rows - 2)) := by
    conv_lhs => rw [show g.rows - 1 = (g.rows - 2) + 1 from by omega]
    exact List.range_succ_eq_map _
  rw [hsplit, List.map_append, List.sum_append, hsplit2]
  simp only [List.map_cons, List.sum_cons, List.map_map, List.map_nil, List.sum_nil]
  have hmid : 2 * (g.rows - 2) ≤ ((List.range (g.rows - 2)).map (F ∘ Nat.succ)).sum :=
    sum_map_range_ge (F ∘ Nat.succ) (fun i => hF2 (Nat.succ i)) (g.rows - 2)
  rw [hF0, hFlast] at *
  omega

/-- Instantiation of `part1_lower_bound` on the canonical 5×5 grid. -/
theorem part1_lower_bound_witness : 2 * 5 + 2 * 5 - 4 ≤ part1 demoGrid :=
  part1_lower_bound demoGrid (by decide) (by decide)

/-! ## `part1` and `part2` depend only on the in-bounds heights -/

lemma visUp_congr (g g' : Grid)
    (hh : ∀ a b, a < g.rows → b < g.cols → g'.h a b = g.h a b)
    (i j : Nat) (hi : i < g.rows) (hj : j < g.cols) :
    visUp g' i j ↔ visUp g i j := by
  unfold visUp
  constructor
  · intro hv i' hi'
    have := hv i' hi'
    rwa [hh i' j (by omega) hj, hh i j hi hj] at this
  · intro hv i' hi'
    rw [hh i' j (by omega) hj, hh i j hi hj]
    exact hv i' hi'

lemma visDown_congr (g g' : Grid) (hr : g'.rows = g.rows)
    (hh : ∀ a b, a < g.rows → b < g.cols → g'.h a b = g.h a b)
    (i j : Nat) (hi : i < g.rows) (hj : j < g.cols) :
    visDown g' i j ↔ visDown g i j := by
  unfold visDown
  rw [hr]
  constructor
  · intro hv i' hi' hlt
    have := hv i' hi' hlt
    rwa [hh i' j hi' hj, hh i j hi hj] at this
  · intro hv i' hi' hlt
    rw [hh i' j hi' hj, hh i j hi hj]
    exact hv i' hi' hlt

lemma visLeft_congr (g g' : Grid)
    (hh : ∀ a b, a < g.rows → b < g.cols → g'.h a b = g.h a b)
    (i j : Nat) (hi : i < g.rows) (hj : j < g.cols) :
    visLeft g' i j ↔ visLeft g i j := by
  unfold visLeft
  constructor
  · intro hv j' hj'
    have := hv j' hj'
    rwa [hh i j' hi (by omega), hh i j hi hj] at this
  · intro hv j' hj'
    rw [hh i j' hi (by omega), hh i j hi hj]
    exact hv j' hj'

lemma visRight_congr (g g' : Grid) (hc : g'.cols = g.cols)
    (hh : ∀ a b, a < g.rows → b < g.cols → g'.h a b = g.h a b)
    (i j : Nat) (hi : i < g.rows) (hj : j < g.cols) :
    visRight g' i j ↔ visRight g i j := by
  unfold visRight
  rw [hc]
  constructor
  · intro hv j' hj' hlt
    have := hv j' hj' hlt
    rwa [hh i j' hi hj', hh i j hi hj] at this
  · intro hv j' hj' hlt
    rw [hh i j' hi hj', hh i j hi hj]
    exact hv j' hj' hlt

lemma visibleMark_congr (g g' : Grid) (hr : g'.rows = g.rows) (hc : g'.cols = g.cols)
    (hh : ∀ a b, a < g.rows → b < g.cols → g'.h a b = g.h a b)
    (i j : Nat) (hi : i < g.rows) (hj : j < g.cols) :
    visibleMark g' i j = visibleMark g i j := by
  rw [Bool.eq_iff_iff]
  rw [visibleMark_iff g' i j (by omega) (by omega), visibleMark_iff g i j hi hj]
  unfold visibleSpec
  rw [visUp_congr g g' hh i j hi hj, visDown_congr g g' hr hh i j hi hj,
    visLeft_congr g g' hh i j hi hj, visRight_congr g g' hc hh i j hi hj]

lemma allCells_congr (g g' : Grid) (hr : g'.rows = g.rows) (hc : g'.cols = g.cols) :
    allCells g' = allCells g := by
  unfold allCells
  rw [hr, hc]

lemma see_trees_go_congr (g g' : Grid) (hr : g'.rows = g.rows) (hc : g'.cols = g.cols)
    (hh : ∀ a b, a < g.rows → b < g.cols → g'.h a b = g.h a b) (own : Nat) (d : Dir) :
    ∀ fuel pos, see_trees_go g' own d pos fuel = see_trees_go g own d pos fuel := by
  intro fuel
  induction fuel with
  | zero => intro pos; rfl
  | succ n ih =>
    intro pos
    simp only [see_trees_go, apply_congr_dims g g' hr hc d pos]
    cases happ : d.apply pos g with
    | none => simp [happ]
    | some p =>
      have hb := apply_some_in_bounds g d pos p happ
      simp [happ, hh p.1 p.2 hb.1 hb.2, ih p]

lemma see_trees_congr (g g' : Grid) (hr : g'.rows = g.rows) (hc : g'.cols = g.cols)
    (hh : ∀ a b, a < g.rows → b < g.cols → g'.h a b = g.h a b)
    (pos : Nat × Nat) (h1 : pos.1 < g.rows) (h2 : pos.2 < g.cols) (d : Dir) :
    see_trees g' pos d = see_trees g pos d := by
  unfold see_trees
  rw [hr, hc, hh pos.1 pos.2 h1 h2, see_trees_go_congr g g' hr hc hh _ d _ pos]

lemma scenic_congr (g g' : Grid) (hr : g'.rows = g.rows) (hc : g'.cols = g.cols)
    (hh : ∀ a b, a < g.rows → b < g.cols → g'.h a b = g.h a b)
    (i j : Nat) (hi : i < g.rows) (hj : j < g.cols) :
    scenic g' i j = scenic g i j := by
  unfold scenic
  rw [see_trees_congr g g' hr hc hh (i, j) hi hj .up,
    see_trees_congr g g' hr hc hh (i, j) hi hj .down,
    see_trees_congr g g' hr hc hh (i, j) hi hj .left,
    see_trees_congr g g' hr hc hh (i, j) hi hj .right]

/-- C9: `part1` and `part2` are pure functions of the grid's dimensions and
in-bounds heights: any two grids agreeing on those produce identical
results, so reevaluation on the unchanged grid is deterministic and neither
computation depends on (or alters) anything else. -/
theorem parts_read_only (g g' : Grid)
    (hr : g'.rows = g.rows) (hc : g'.cols = g.cols)
    (hh : ∀ i j, i < g.rows → j < g.cols → g'.h i j = g.h i j) :
    part1 g' = part1 g ∧ part2 g' = part2 g := by
  constructor
  · unfold part1
    rw [allCells_congr g g' hr hc]
    refine List.countP_congr fun x hx => ?_
    have hb := (mem_allCells g x).mp hx
    rw [visibleMark_congr g g' hr hc hh x.1 x.2 hb.1 hb.2]
  · unfold part2
    have hmap : (allCells g').map (fun x => scenic g' x.1 x.2) =
        (allCells g).map fun x => scenic g x.1 x.2 := by
      rw [allCells_congr g g' hr hc]
      refine List.map_congr_left fun x hx => ?_
      have hb := (mem_allCells g x).mp hx
      exact scenic_congr g g' hr hc hh x.1 x.2 hb.1 hb.2
    rw [hmap]

/-- Instantiation of `parts_read_only`: the padded variant of the canonical
grid, which differs from it at every out-of-bounds coordinate, produces the
same two answers. -/
theorem parts_read_only_witness :
    part1 demoGridPadded = part1 demoGrid ∧ part2 demoGridPadded = part2 demoGrid :=
  parts_read_only demoGrid demoGridPadded rfl rfl
    (fun i j hi hj => if_pos ⟨hi, hj⟩)

/-! ## Parsing -/

lemma digitVal_isSome_iff (c : Char) : (digitVal c).isSome = true ↔ c.isDigit = true := by
  unfold digitVal
  by_cases hc : c.isDigit
  · simp [hc]
  · simp [hc]

lemma mapM_digitVal_some_iff (l : List Char) :
    (∃ v, l.mapM digitVal = some v) ↔ ∀ c ∈ l, c.isDigit := by
  induction l with
  | nil =>
    simp only [List.not_mem_nil, false_implies, implies_true, iff_true]
    exact ⟨[], rfl⟩
  | cons c cs ih =>
    rw [List.mapM_cons]
    constructor
    · rintro ⟨v, hv⟩
      cases hc : digitVal c with
      | none => rw [hc] at hv; simp at hv
      | some b =>
        rw [hc] at hv
        cases hm : cs.mapM digitVal with
        | none => rw [hm] at hv; simp at hv
        | some bs =>
          rw [hm] at hv
          intro x hx
          rcases List.mem_cons.mp hx with rfl | hx
          · exact (digitVal_isSome_iff x).mp (by rw [hc]; rfl)
          · exact (ih.mp ⟨bs, hm⟩) x hx
    · intro hall
      obtain ⟨bs, hbs⟩ := ih.mpr fun x hx => hall x (List.mem_cons.mpr (Or.inr hx))
      obtain ⟨b, hb⟩ := Option.isSome_iff_exists.mp
        ((digitVal_isSome_iff c).mpr (hall c (List.mem_cons_self c cs)))
      exact ⟨b :: bs, by rw [hb, hbs]; rfl⟩

lemma mapM_digitVal_length (l : List Char) (v : List Nat) (h : l.mapM digitVal = some v) :
    v.length = l.length := by
  induction l generalizing v with
  | nil => rw [List.mapM_nil] at h; cases h; rfl
  | cons c cs ih =>
    rw [List.mapM_cons] at h
    cases hc : digitVal c with
    | none => rw [hc] at h; simp at h
    | some b =>
      rw [hc] at h
      cases hm : cs.mapM digitVal with
      | none => rw [hm] at h; simp at h
      | some bs =>
        rw [hm] at h
        cases h
        simp [ih bs hm]

lemma mapM_digitVal_get (l : List Char) (v : List Nat) (h : l.mapM digitVal = some v) :
    ∀ n, (l.get? n).bind digitVal = v.get? n := by
  induction l generalizing v with
  | nil => rw [List.mapM_nil] at h; cases h; intro n; rfl
  | cons c cs ih =>
    rw [List.mapM_cons] at h
    cases hc : digitVal c with
    | none => rw [hc] at h; simp at h
    | some b =>
      rw [hc] at h
      cases hm : cs.mapM digitVal with
      | none => rw [hm] at h; simp at h
      | some bs =>
        rw [hm] at h
        cases h
        intro n
        cases n with
        | zero => simp [hc]
        | succ k => simpa using ih bs hm k

lemma parse_input_cons (first : List Char) (rest : List (List Char)) :
    parse_input (first :: rest) =
      match ((first :: rest).flatMap id).mapM digitVal with
      | none => .error "invalid digit"
      | some mat =>
        if mat.length = first.length * first.length then
          .ok ⟨first.length, first.length, fun i j => mat.getD (i * first.length + j) 0⟩
        else .error "weird shape" := rfl

lemma mul_index_lt (i j len : Nat) (hi : i < len) (hj : j < len) :
    i * len + j < len * len := by
  calc i * len + j < i * len + len := by omega
    _ = (i + 1) * len := by ring
    _ ≤ len * len := Nat.mul_le_mul_right len (by omega)

/-- C1 (amended): parsing fails on an empty line list; for a non-empty line
list with first line of length `len`, parsing succeeds exactly when every
character of every line is an ASCII digit and the total character count is
`len * len`, in which case the result is the `len × len` grid of the parsed
digits in row-major order.  (Equal line lengths are neither sufficient —
the line count must equal `len` — nor necessary: the ragged all-digit
input with lines `12`, `3`, `4` has `len² = 4` total digits and parses.) -/
theorem parse_input_spec (lines : List (List Char)) :
    (lines = [] → parse_input lines = .error "No lines") ∧
    (∀ first rest, lines = first :: rest →
      ((∃ g, parse_input lines = .ok g) ↔
        (∀ c ∈ lines.flatMap id, c.isDigit) ∧
          (lines.flatMap id).length = first.length * first.length) ∧
      (∀ g, parse_input lines = .ok g →
        g.rows = first.length ∧ g.cols = first.length ∧
        ∀ i j, i < first.length → j < first.length →
          ((lines.flatMap id).get? (i * first.length + j)).bind digitVal = some (g.h i j))) := by
  constructor
  · rintro rfl
    rfl
  · rintro first rest rfl
    constructor
    · constructor
      · rintro ⟨g, hg⟩
        rw [parse_input_cons] at hg
        cases hm : ((first :: rest).flatMap id).mapM digitVal with
        | none => rw [hm] at hg; cases hg
        | some mat =>
          rw [hm] at hg
          dsimp only at hg
          by_cases hlen : mat.length = first.length * first.length
          · refine ⟨fun c hc => ?_, ?_⟩
            · exact (mapM_digitVal_some_iff _).mp ⟨mat, hm⟩ c hc
            · rw [← mapM_digitVal_length _ mat hm, hlen]
          · rw [if_neg hlen] at hg
            cases hg
      · rintro ⟨hdig, hlen⟩
        obtain ⟨mat, hm⟩ := (mapM_digitVal_some_iff _).mpr hdig
        have hml : mat.length = first.length * first.length := by
          rw [mapM_digitVal_length _ mat hm, hlen]
        refine ⟨⟨first.length, first.length, fun i j =>
          mat.getD (i * first.length + j) 0⟩, ?_⟩
        rw [parse_input_cons, hm]
        dsimp only
        rw [if_pos hml]
    · rintro g hg
      rw [parse_input_cons] at hg
      cases hm : ((first :: rest).flatMap id).mapM digitVal with
      | none => rw [hm] at hg; cases hg
      | some mat =>
        rw [hm] at hg
        dsimp only at hg
        by_cases hlen : mat.length = first.length * first.length
        · rw [if_pos hlen] at hg
          cases hg
          refine ⟨rfl, rfl, fun i j hi hj => ?_⟩
          have hn : i * first.length + j < mat.length := by
            rw [hlen]
            exact mul_index_lt i j first.length hi hj
          have h1 : mat.get? (i * first.length + j) = some (mat.get ⟨_, hn⟩) :=
            List.get?_eq_get hn
          calc (((first :: rest).flatMap id).get? (i * first.length + j)).bind digitVal
              = mat.get? (i * first.length + j) := mapM_digitVal_get _ mat hm _
            _ = some (mat.getD (i * first.length + j) 0) := by
                rw [List.getD_eq_getElem?_getD, ← List.get?_eq_getElem?, h1]
                rfl
        · rw [if_neg hlen] at hg
          cases hg

/-- Instantiation of `parse_input_spec`: the square all-digit input
`12 / 34` parses, and the empty input fails with `"No lines"`. -/
theorem parse_input_spec_witness :
    (∃ g, parse_input [['1', '2'], ['3', '4']] = .ok g) ∧
    parse_input [] = .error "No lines" :=
  ⟨((parse_input_spec [['1', '2'], ['3', '4']]).2 ['1', '2'] [['3', '4']] rfl).1.mpr
    (by decide), (parse_input_spec []).1 rfl⟩

/-- Counterexample to C1 as stated, in both directions.  First: the input
with the three equal-length all-digit lines `11`, `22`, `33` is non-empty,
every line consists of digits, and all lines have equal length 2, yet
parsing fails (the line count differs from the first line's length, so the
flat digit list cannot be reshaped into a square).  Second: the ragged
all-digit input with lines `12`, `3`, `4` has lines of unequal length, yet
parsing succeeds (its 4 characters reshape into the 2×2 square). -/
theorem parse_input_claim_cex :
    (([['1', '1'], ['2', '2'], ['3', '3']] : List (List Char)) ≠ [] ∧
     (∀ l ∈ ([['1', '1'], ['2', '2'], ['3', '3']] : List (List Char)), ∀ c ∈ l, c.isDigit) ∧
     (∀ l ∈ ([['1', '1'], ['2', '2'], ['3', '3']] : List (List Char)), l.length = 2) ∧
     parse_input [['1', '1'], ['2', '2'], ['3', '3']] = .error "weird shape") ∧
    ((∀ l ∈ ([['1', '2'], ['3'], ['4']] : List (List Char)), ∀ c ∈ l, c.isDigit) ∧
     (∃ l ∈ ([['1', '2'], ['3'], ['4']] : List (List Char)),
       l.length ≠ (['1', '2'] : List Char).length) ∧
     ∃ g, parse_input [['1', '2'], ['3'], ['4']] = .ok g) :=
  ⟨⟨by decide, by decide, by decide, rfl⟩, by decide, by decide, ⟨_, rfl⟩⟩
